import Mathlib

/-!
Verification of the two FASTA utilities of this repository:
`checkforNs.py` (the N-run scanner) and `reordercontigs.py` (the contig
reorder tool).  Lines of text and sequences are modelled as `List Char`,
Python iteration becomes structural recursion, and fallible operations
return `Except`/`Option`.
-/

/-- The characters Python `str.split`/`str.strip` treat as whitespace. -/
def isWS (c : Char) : Bool :=
  c == ' ' || c == '\t' || c == '\n' || c == '\r' || c == '\x0b' || c == '\x0c'

/-- Python `line.rstrip()`: remove trailing whitespace. -/
def rstripPy (l : List Char) : List Char :=
  (l.reverse.dropWhile isWS).reverse

/-- Python `line.strip()`: remove leading and trailing whitespace. -/
def stripPy (l : List Char) : List Char :=
  rstripPy (l.dropWhile isWS)

/-- Python `s.split()[0]` as a total function: `none` when `split()` is the
empty list (in Python that subscript raises `IndexError`). -/
def splitHead (l : List Char) : Option (List Char) :=
  match l.dropWhile isWS with
  | [] => none
  | c :: cs => some ((c :: cs).takeWhile (fun d => !isWS d))

/-- The first whitespace-delimited token of a string (`h.split()[0]`),
`[]` when the string has no token at all. -/
def firstTok (l : List Char) : List Char :=
  (l.dropWhile isWS).takeWhile (fun d => !isWS d)

/-! ## `checkforNs.py` — the N-run scanner -/

/-- `checkforNs.py`, `parse_fasta`: the recursion carries the current record
name and its accumulated (upper-cased) sequence lines.  A marker line whose
text after `>` has no token makes `line[1:].split()[0]` raise `IndexError`;
that is the `.error` case. -/
def parseGoNs : List (List Char) → Option (List Char) → List (List Char) →
    Except Unit (List (List Char × List Char))
  | [], none, _ => .ok []
  | [], some n, parts => .ok [(n, parts.flatten)]
  | ln :: rest, cur, parts =>
    let l := rstripPy ln
    if l = [] then parseGoNs rest cur parts
    else if l.head? = some '>' then
      match splitHead (l.drop 1) with
      | none => .error ()
      | some tok =>
        match cur with
        | none => parseGoNs rest (some tok) []
        | some n => Except.map (fun xs => (n, parts.flatten) :: xs) (parseGoNs rest (some tok) [])
    else
      parseGoNs rest cur (parts ++ [l.map Char.toUpper])

/-- `parse_fasta` of `checkforNs.py` over the (newline-free) lines of the
input file. -/
def parseFastaNs (lines : List (List Char)) : Except Unit (List (List Char × List Char)) :=
  parseGoNs lines none []

/-- The maximal-run scan underlying `re.finditer(r"N+", seq)`: a left-to-right
pass that opens a run at the first `'N'`, keeps it open while `'N'`s continue,
and closes it (recording the 0-based half-open span) at the first other
character or at the end.  `i` is the index of the head of the remaining list,
and the third argument is the start of the currently open run, if any. -/
def scanN : List Char → Nat → Option Nat → List (Nat × Nat)
  | [], _, none => []
  | [], i, some st => [(st, i)]
  | c :: cs, i, none =>
    if c == 'N' then scanN cs (i + 1) (some i) else scanN cs (i + 1) none
  | c :: cs, i, some st =>
    if c == 'N' then scanN cs (i + 1) (some st) else (st, i) :: scanN cs (i + 1) none

/-- All maximal runs of `'N'` in a sequence, as 0-based half-open spans, in
scan order: the shallow embedding of the `re.finditer(r"N+", seq)` loop. -/
def nRuns (s : List Char) : List (Nat × Nat) :=
  scanN s 0 none

/-- One row of the `.N_runs.tsv` report.  `fracN` is kept as the exact
rational value `total_Ns / contig_len`; `runPositions` is the list of
1-based inclusive `(start, end)` pairs joined as `"start-end"` strings in
the report. -/
structure NReport where
  contig : List Char
  contigLen : Nat
  totalNs : Nat
  fracN : ℚ
  nNRuns : Nat
  runPositions : List (Nat × Nat)
  deriving Repr, DecidableEq

/-- One line of the `.N_runs.bed` report; `chrom` and the 0-based half-open
`(bedStart, bedEnd)` determine the synthesized name field. -/
structure BedLine where
  chrom : List Char
  bedStart : Nat
  bedEnd : Nat
  nLen : Nat
  deriving Repr, DecidableEq

/-- The body of the scan loop of `checkforNs.py` for one parsed record:
count the `'N'`s, skip the record entirely when there are none, otherwise
compute the fraction and the runs and emit one TSV row plus one BED line
per run. -/
def scanRecord (name : List Char) (seq : List Char) : Option (NReport × List BedLine) :=
  let seqlen := seq.length
  let totalNs := seq.count 'N'
  if totalNs = 0 then none
  else
    let runs := nRuns seq
    some ({ contig := name
            contigLen := seqlen
            totalNs := totalNs
            fracN := (totalNs : ℚ) / (seqlen : ℚ)
            nNRuns := runs.length
            runPositions := runs.map (fun r => (r.1 + 1, r.2)) },
          runs.map (fun r => { chrom := name, bedStart := r.1, bedEnd := r.2, nLen := r.2 - r.1 }))

/-- The whole scan loop: the TSV rows and BED lines produced for a list of
parsed records, in input order. -/
def scanFasta (records : List (List Char × List Char)) : List NReport × List BedLine :=
  records.foldr
    (fun rec acc =>
      match scanRecord rec.1 rec.2 with
      | none => acc
      | some (rep, bl) => (rep :: acc.1, bl ++ acc.2))
    ([], [])

/-! ### Facts about the scan -/

/-- Closing an open run: scanning with an open run that started at `s0`
first emits `(s0, i + t)` where `t` is the length of the pending block of
`'N'`s, then continues with no open run. -/
theorem scanN_some_eq (cs : List Char) (i s0 : Nat) :
    scanN cs i (some s0) =
      (s0, i + (cs.takeWhile (fun c => c == 'N')).length) ::
        scanN (cs.dropWhile (fun c => c == 'N'))
          (i + (cs.takeWhile (fun c => c == 'N')).length) none := by
  induction cs generalizing i with
  | nil => simp [scanN]
  | cons c cs ih =>
    by_cases h : (c == 'N') = true
    · have harith : i + 1 + (cs.takeWhile (fun c => c == 'N')).length
          = i + ((cs.takeWhile (fun c => c == 'N')).length + 1) := by omega
      simp only [scanN, h, if_true, List.takeWhile_cons, List.dropWhile_cons, ih (i + 1),
        List.length_cons, harith]
    · simp [scanN, h, List.takeWhile_cons, List.dropWhile_cons]

/-- Index shift used when peeling the head of the scanned list. -/
theorem cons_getElem?_sub (c : Char) (cs : List Char) (i j : Nat) (h : i < j) :
    (c :: cs)[j - i]? = cs[j - (i + 1)]? := by
  have hidx : j - i = (j - (i + 1)) + 1 := by omega
  rw [hidx]
  simp

/-- Soundness of the scan: each reported run lies inside the scanned region,
is nonempty, and every position it covers holds `'N'`.  The last conjunct
restricts to positions at or after the current index `i`; for a run opened
at `s0` before `i`, positions below `i` are outside the remaining list. -/
theorem scanN_mem (cs : List Char) : ∀ (i : Nat) (st : Option Nat),
    (∀ s0, st = some s0 → s0 < i) →
    ∀ r ∈ scanN cs i st,
      (st = none → i ≤ r.1) ∧
      (∀ s0, st = some s0 → s0 ≤ r.1) ∧
      r.1 < r.2 ∧ r.2 ≤ i + cs.length ∧
      ∀ j, r.1 ≤ j → i ≤ j → j < r.2 → cs[j - i]? = some 'N' := by
  induction cs with
  | nil =>
    intro i st hst r hr
    cases st with
    | none => simp [scanN] at hr
    | some s0 =>
      simp only [scanN, List.mem_singleton] at hr
      subst hr
      refine ⟨?_, ?_, hst s0 rfl, by simp, ?_⟩
      · intro h
        simp at h
      · intro s1 h1
        injection h1 with h1
        omega
      · intro j _ hij hji
        simp only at hij hji
        omega
  | cons c cs ih =>
    intro i st hst r hr
    cases st with
    | none =>
      by_cases h : (c == 'N') = true
      · simp only [scanN, h, if_true] at hr
        have hc : c = 'N' := by simpa using h
        obtain ⟨_, hs0le, hlt, hub, hchar⟩ :=
          ih (i + 1) (some i) (by intro s0 hs0; injection hs0 with hs0; omega) r hr
        have hi1 : i ≤ r.1 := hs0le i rfl
        refine ⟨fun _ => hi1, ?_, hlt, ?_, ?_⟩
        · intro s0 hs0
          simp at hs0
        · simp only [List.length_cons]
          omega
        · intro j hj hij hjr
          rcases Nat.eq_or_lt_of_le hij with hji | hji
          · subst hji
            simp [hc]
          · rw [cons_getElem?_sub c cs i j hji]
            exact hchar j hj (by omega) hjr
      · simp only [scanN, h, if_false] at hr
        obtain ⟨hnone, _, hlt, hub, hchar⟩ :=
          ih (i + 1) none (by intro s0 hs0; simp at hs0) r hr
        have hi1 : i + 1 ≤ r.1 := hnone rfl
        refine ⟨fun _ => by omega, ?_, hlt, ?_, ?_⟩
        · intro s0 hs0
          simp at hs0
        · simp only [List.length_cons]
          omega
        · intro j hj hij hjr
          rw [cons_getElem?_sub c cs i j (by omega)]
          exact hchar j hj (by omega) hjr
    | some s0 =>
      have hs0i : s0 < i := hst s0 rfl
      by_cases h : (c == 'N') = true
      · simp only [scanN, h, if_true] at hr
        have hc : c = 'N' := by simpa using h
        obtain ⟨_, hs0le, hlt, hub, hchar⟩ :=
          ih (i + 1) (some s0) (by intro s1 hs1; injection hs1 with hs1; omega) r hr
        refine ⟨?_, ?_, hlt, ?_, ?_⟩
        · intro hco
          simp at hco
        · intro s1 hs1
          injection hs1 with hs1
          exact hs1 ▸ hs0le s0 rfl
        · simp only [List.length_cons]
          omega
        · intro j hj hij hjr
          rcases Nat.eq_or_lt_of_le hij with hji | hji
          · subst hji
            simp [hc]
          · rw [cons_getElem?_sub c cs i j hji]
            exact hchar j hj (by omega) hjr
      · simp only [scanN] at hr
        rw [if_neg h] at hr
        rcases List.mem_cons.mp hr with hr | hr
        · subst hr
          refine ⟨?_, ?_, hs0i, ?_, ?_⟩
          · intro hco
            simp at hco
          · intro s1 hs1
            injection hs1 with hs1
            omega
          · simp only [List.length_cons]
            omega
          · intro j hj hij hjr
            simp only at hj hij hjr
            omega
        · obtain ⟨hnone, _, hlt, hub, hchar⟩ :=
            ih (i + 1) none (by intro s1 hs1; simp at hs1) r hr
          have hi1 : i + 1 ≤ r.1 := hnone rfl
          refine ⟨?_, ?_, hlt, ?_, ?_⟩
          · intro hco
            simp at hco
          · intro s1 hs1
            injection hs1 with hs1
            omega
          · simp only [List.length_cons]
            omega
          · intro j hj hij hjr
            rw [cons_getElem?_sub c cs i j (by omega)]
            exact hchar j hj (by omega) hjr

/-- Completeness of the scan: every `'N'` position of the remaining list is
covered by some reported run. -/
theorem scanN_cover (cs : List Char) : ∀ (i : Nat) (st : Option Nat) (j : Nat),
    cs[j]? = some 'N' →
    (∀ s0, st = some s0 → s0 < i) →
    ∃ r ∈ scanN cs i st, r.1 ≤ i + j ∧ i + j < r.2 := by
  induction cs with
  | nil =>
    intro i st j hj _
    simp at hj
  | cons c cs ih =>
    intro i st j hj hst
    cases j with
    | zero =>
      have hc : c = 'N' := by simpa using hj
      have hcb : (c == 'N') = true := by simp [hc]
      cases st with
      | none =>
        rw [show scanN (c :: cs) i none = scanN cs (i + 1) (some i) from by
          simp [scanN, hcb]]
        rw [scanN_some_eq]
        exact ⟨_, List.mem_cons_self _ _, by omega⟩
      | some s0 =>
        have hs0 : s0 < i := hst s0 rfl
        rw [show scanN (c :: cs) i (some s0) = scanN cs (i + 1) (some s0) from by
          simp [scanN, hcb]]
        rw [scanN_some_eq]
        exact ⟨_, List.mem_cons_self _ _, by omega⟩
    | succ m =>
      have hm : cs[m]? = some 'N' := by simpa using hj
      cases st with
      | none =>
        by_cases h : (c == 'N') = true
        · rw [show scanN (c :: cs) i none = scanN cs (i + 1) (some i) from by
            simp [scanN, h]]
          obtain ⟨r, hr, h1, h2⟩ :=
            ih (i + 1) (some i) m hm (by intro s0 hs0; injection hs0 with hs0; omega)
          exact ⟨r, hr, by omega, by omega⟩
        · rw [show scanN (c :: cs) i none = scanN cs (i + 1) none from by
            simp only [scanN]; rw [if_neg h]]
          obtain ⟨r, hr, h1, h2⟩ := ih (i + 1) none m hm (by intro s0 hs0; simp at hs0)
          exact ⟨r, hr, by omega, by omega⟩
      | some s0 =>
        have hs0 : s0 < i := hst s0 rfl
        by_cases h : (c == 'N') = true
        · rw [show scanN (c :: cs) i (some s0) = scanN cs (i + 1) (some s0) from by
            simp [scanN, h]]
          obtain ⟨r, hr, h1, h2⟩ :=
            ih (i + 1) (some s0) m hm (by intro s1 hs1; injection hs1 with hs1; omega)
          exact ⟨r, hr, by omega, by omega⟩
        · rw [show scanN (c :: cs) i (some s0) = (s0, i) :: scanN cs (i + 1) none from by
            simp only [scanN]; rw [if_neg h]]
          obtain ⟨r, hr, h1, h2⟩ := ih (i + 1) none m hm (by intro s1 hs1; simp at hs1)
          exact ⟨r, List.mem_cons_of_mem _ hr, by omega, by omega⟩

/-- Separation of the reported runs: each run ends strictly before the next
begins, so runs neither overlap nor touch, and starts are strictly
increasing. -/
theorem scanN_pairwise (cs : List Char) : ∀ (i : Nat) (st : Option Nat),
    (∀ s0, st = some s0 → s0 < i) →
    (scanN cs i st).Pairwise (fun a b => a.2 < b.1) := by
  induction cs with
  | nil =>
    intro i st hst
    cases st <;> simp [scanN]
  | cons c cs ih =>
    intro i st hst
    cases st with
    | none =>
      by_cases h : (c == 'N') = true
      · rw [show scanN (c :: cs) i none = scanN cs (i + 1) (some i) from by
          simp [scanN, h]]
        exact ih (i + 1) (some i) (by intro s0 hs0; injection hs0 with hs0; omega)
      · rw [show scanN (c :: cs) i none = scanN cs (i + 1) none from by
          simp only [scanN]; rw [if_neg h]]
        exact ih (i + 1) none (by intro s0 hs0; simp at hs0)
    | some s0 =>
      have hs0 : s0 < i := hst s0 rfl
      by_cases h : (c == 'N') = true
      · rw [show scanN (c :: cs) i (some s0) = scanN cs (i + 1) (some s0) from by
          simp [scanN, h]]
        exact ih (i + 1) (some s0) (by intro s1 hs1; injection hs1 with hs1; omega)
      · rw [show scanN (c :: cs) i (some s0) = (s0, i) :: scanN cs (i + 1) none from by
          simp only [scanN]; rw [if_neg h]]
        refine List.Pairwise.cons ?_ (ih (i + 1) none (by intro s1 hs1; simp at hs1))
        intro b hb
        obtain ⟨hbn, _, _, _, _⟩ :=
          scanN_mem cs (i + 1) none (by intro s1 hs1; simp at hs1) b hb
        have := hbn rfl
        simp only
        omega

/-- The total count of `'N'`s equals the summed lengths of the reported runs
(plus the still-open run when the scan state holds one). -/
theorem scanN_sum (cs : List Char) : ∀ (i : Nat) (st : Option Nat),
    (∀ s0, st = some s0 → s0 ≤ i) →
    ((scanN cs i st).map (fun r => r.2 - r.1)).sum
      = cs.count 'N' + st.elim 0 (fun s0 => i - s0) := by
  induction cs with
  | nil =>
    intro i st hst
    cases st with
    | none => simp [scanN]
    | some s0 => simp [scanN]
  | cons c cs ih =>
    intro i st hst
    have hcnt : (c :: cs).count 'N' = cs.count 'N' + if c == 'N' then 1 else 0 :=
      List.count_cons 'N' c cs
    cases st with
    | none =>
      by_cases h : (c == 'N') = true
      · rw [show scanN (c :: cs) i none = scanN cs (i + 1) (some i) from by
          simp [scanN, h]]
        rw [ih (i + 1) (some i) (by intro s0 hs0; injection hs0 with hs0; omega)]
        rw [hcnt, if_pos h]
        simp [Option.elim]
      · rw [show scanN (c :: cs) i none = scanN cs (i + 1) none from by
          simp only [scanN]; rw [if_neg h]]
        rw [ih (i + 1) none (by intro s0 hs0; simp at hs0)]
        rw [hcnt, if_neg h]
        simp [Option.elim]
    | some s0 =>
      have hs0 : s0 ≤ i := hst s0 rfl
      by_cases h : (c == 'N') = true
      · rw [show scanN (c :: cs) i (some s0) = scanN cs (i + 1) (some s0) from by
          simp [scanN, h]]
        rw [ih (i + 1) (some s0) (by intro s1 hs1; injection hs1 with hs1; omega)]
        rw [hcnt, if_pos h]
        simp only [Option.elim]
        omega
      · rw [show scanN (c :: cs) i (some s0) = (s0, i) :: scanN cs (i + 1) none from by
          simp only [scanN]; rw [if_neg h]]
        simp only [List.map_cons, List.sum_cons]
        rw [ih (i + 1) none (by intro s1 hs1; simp at hs1)]
        rw [hcnt, if_neg h]
        simp only [Option.elim]
        omega

/-- Claim C1: the runs reported by the N-run scanner cover exactly the
positions of the sequence holding `'N'`: every position inside a reported
run holds `'N'`, every `'N'` position lies in exactly one reported run, no
two reported runs overlap or are adjacent (each ends strictly before the
next starts, in 0-based half-open coordinates), and runs are listed in
ascending order of start position. -/
theorem claim_C1_runs_cover_exactly (s : List Char) :
    (∀ r ∈ nRuns s, r.1 < r.2 ∧ r.2 ≤ s.length ∧
      ∀ j, r.1 ≤ j → j < r.2 → s[j]? = some 'N') ∧
    (∀ j, s[j]? = some 'N' → ∃! r, r ∈ nRuns s ∧ r.1 ≤ j ∧ j < r.2) ∧
    (nRuns s).Pairwise (fun a b => a.2 < b.1) ∧
    (nRuns s).Pairwise (fun a b => a.1 < b.1) := by
  have hstn : ∀ s0 : Nat, (none : Option Nat) = some s0 → s0 < 0 := by
    intro s0 hs0
    simp at hs0
  have hmem := scanN_mem s 0 none hstn
  have hpw := scanN_pairwise s 0 none hstn
  have hsound : ∀ r ∈ nRuns s, r.1 < r.2 ∧ r.2 ≤ s.length ∧
      ∀ j, r.1 ≤ j → j < r.2 → s[j]? = some 'N' := by
    intro r hr
    obtain ⟨_, _, hlt, hub, hchar⟩ := hmem r hr
    refine ⟨hlt, by simpa using hub, ?_⟩
    intro j hj hjr
    simpa using hchar j hj (Nat.zero_le j) hjr
  refine ⟨hsound, ?_, hpw, ?_⟩
  · intro j hj
    obtain ⟨r, hr, h1, h2⟩ := scanN_cover s 0 none j hj hstn
    have h1' : r.1 ≤ j := by omega
    have h2' : j < r.2 := by omega
    refine ⟨r, ⟨hr, h1', h2'⟩, ?_⟩
    rintro r' ⟨hr', h1'', h2''⟩
    by_contra hne
    have hsym : ∀ a ∈ nRuns s, ∀ b ∈ nRuns s, a ≠ b → a.2 < b.1 ∨ b.2 < a.1 := by
      have hpw' : (nRuns s).Pairwise (fun a b => a.2 < b.1 ∨ b.2 < a.1) :=
        hpw.imp (fun h => Or.inl h)
      intro a ha b hb hab
      exact hpw'.forall (fun x y hxy => hxy.symm) ha hb hab
    rcases hsym r' hr' r hr hne with hlt | hlt
    · omega
    · omega
  · refine hpw.imp_of_mem ?_
    intro a b ha _ hab
    have := (hsound a ha).1
    omega

/-- Claim C4: for every record reported by the scanner, `totalNs` equals the
sum of the lengths of its reported runs (1-based inclusive spans `(s, e)`
have length `e + 1 - s`), and `fracN` equals `totalNs / contigLen` exactly,
as a rational number. -/
theorem claim_C4_totals (name seq : List Char) (rep : NReport) (bed : List BedLine)
    (h : scanRecord name seq = some (rep, bed)) :
    rep.totalNs = (rep.runPositions.map (fun p => p.2 + 1 - p.1)).sum ∧
    rep.fracN = (rep.totalNs : ℚ) / (rep.contigLen : ℚ) := by
  by_cases h0 : seq.count 'N' = 0
  · simp [scanRecord, h0] at h
  · simp only [scanRecord, h0, if_false, Option.some_inj, Prod.mk.injEq] at h
    obtain ⟨hrep, -⟩ := h
    subst hrep
    constructor
    · simp only [List.map_map]
      have harg : ((fun p : Nat × Nat => p.2 + 1 - p.1) ∘ fun r : Nat × Nat => (r.1 + 1, r.2))
          = fun r : Nat × Nat => r.2 - r.1 := by
        funext r
        simp only [Function.comp_apply]
        omega
      rw [harg]
      have := scanN_sum seq 0 none (by intro s0 hs0; simp at hs0)
      simp only [Option.elim] at this
      rw [nRuns, this]
      omega
    · rfl

/-- The scan loop only ever computes the `N` fraction of a record whose
sequence has positive length: a record with `total_Ns = 0` is skipped
before the division, and a zero-length sequence contains no `'N'`. -/
theorem scanRecord_contigLen_pos (name seq : List Char) (out : NReport × List BedLine)
    (h : scanRecord name seq = some out) : 0 < out.1.contigLen := by
  by_cases h0 : seq.count 'N' = 0
  · simp [scanRecord, h0] at h
  · simp only [scanRecord, h0, if_false, Option.some_inj] at h
    subst h
    have hle : seq.count 'N' ≤ seq.length := List.count_le_length 'N' seq
    simp only
    omega

/-- Claim C5, counterexample to the claim as stated: there is no input record
for which the scanner computes `frac_N` with `contig_len = 0`; the
division-by-zero branch is unreachable. -/
theorem claim_C5_counterexample :
    ¬ ∃ (name seq : List Char) (out : NReport × List BedLine),
      scanRecord name seq = some out ∧ out.1.contigLen = 0 := by
  rintro ⟨name, seq, out, h, h0⟩
  have := scanRecord_contigLen_pos name seq out h
  omega

/-- Claim C5, amended: the scanner never computes `frac_N` with
`contig_len = 0`.  The zero-`N` skip runs before the division and a
zero-length sequence contains zero `'N'`s, so every record that reaches the
fraction computation has positive length. -/
theorem claim_C5_div_guarded (name seq : List Char) (out : NReport × List BedLine)
    (h : scanRecord name seq = some out) : 0 < out.1.contigLen :=
  scanRecord_contigLen_pos name seq out h

/-- Witness for the amended C5 at a concrete record. -/
theorem claim_C5_div_guarded_witness :
    ∃ out, scanRecord ['c'] ['N', 'A'] = some out ∧ 0 < out.1.contigLen := by
  rcases hout : scanRecord ['c'] ['N', 'A'] with _ | out
  · exact absurd hout (by decide)
  · exact ⟨out, rfl, claim_C5_div_guarded ['c'] ['N', 'A'] out hout⟩

/-- Claim C6: a parsed record whose sequence contains no `'N'` produces no
TSV row and no BED interval line: the record is skipped, and the whole-file
reports are unchanged by its presence. -/
theorem claim_C6_zero_N_skipped (name seq : List Char)
    (pre post : List (List Char × List Char)) (h : seq.count 'N' = 0) :
    scanRecord name seq = none ∧
    scanFasta (pre ++ (name, seq) :: post) = scanFasta (pre ++ post) := by
  have h1 : scanRecord name seq = none := by simp [scanRecord, h]
  refine ⟨h1, ?_⟩
  induction pre with
  | nil => simp [scanFasta, h1]
  | cons p pre ih =>
    simp only [List.cons_append, scanFasta, List.foldr_cons]
    simp only [scanFasta] at ih
    rw [ih]

/-- Witness for C6 at a concrete record with no `'N'`. -/
theorem claim_C6_zero_N_skipped_witness :
    scanRecord ['c'] ['A', 'C', 'G'] = none ∧
    scanFasta ([(['a'], ['N'])] ++ (['c'], ['A', 'C', 'G']) :: []) =
      scanFasta ([(['a'], ['N'])] ++ []) :=
  claim_C6_zero_N_skipped ['c'] ['A', 'C', 'G'] [(['a'], ['N'])] [] (by decide)

/-- Claim C10: the scanner's FASTA parser is not total over marker lines:
any input containing a line that rstrips to a bare `>` (no identifier, only
trailing whitespace) makes `line[1:].split()[0]` fail, so parsing ends in
the error case instead of skipping the line or yielding a record. -/
theorem claim_C10_bare_marker_fails (lines : List (List Char))
    (h : ∃ l ∈ lines, rstripPy l = ['>']) :
    parseFastaNs lines = .error () := by
  suffices H : ∀ (ls : List (List Char)) (cur : Option (List Char))
      (parts : List (List Char)), (∃ l ∈ ls, rstripPy l = ['>']) →
      parseGoNs ls cur parts = .error () from H lines none [] h
  intro ls
  induction ls with
  | nil =>
    intro cur parts h'
    simp at h'
  | cons ln rest ih =>
    intro cur parts h'
    rcases h' with ⟨l, hl, hstrip⟩
    rcases List.mem_cons.mp hl with rfl | hmem
    · simp only [parseGoNs, hstrip]
      simp [show splitHead ([] : List Char) = none from rfl]
    · have herr := fun cur parts => ih cur parts ⟨l, hmem, hstrip⟩
      simp only [parseGoNs]
      by_cases h0 : rstripPy ln = []
      · simp [h0, herr]
      · simp only [h0, if_false]
        by_cases hhd : (rstripPy ln).head? = some '>'
        · rw [if_pos hhd]
          cases hsp : splitHead ((rstripPy ln).drop 1) with
          | none => simp [hsp]
          | some tok =>
            simp only [hsp]
            cases cur with
            | none => exact herr (some tok) []
            | some n =>
              rw [herr (some tok) []]
              rfl
        · simp only [hhd, if_false]
          exact herr cur (parts ++ [(rstripPy ln).map Char.toUpper])

/-- Witness for C10: the one-line input consisting of a bare `>`. -/
theorem claim_C10_bare_marker_fails_witness :
    parseFastaNs [['>']] = .error () :=
  claim_C10_bare_marker_fails [['>']] ⟨['>'], by simp, by decide⟩

/-- Witness for C4 at a concrete record. -/
theorem claim_C4_totals_witness :
    ∃ rep bed, scanRecord ['c'] ['N', 'A'] = some (rep, bed) ∧
      rep.totalNs = (rep.runPositions.map (fun p => p.2 + 1 - p.1)).sum ∧
      rep.fracN = (rep.totalNs : ℚ) / (rep.contigLen : ℚ) := by
  rcases hout : scanRecord ['c'] ['N', 'A'] with _ | ⟨rep, bed⟩
  · exact absurd hout (by decide)
  · exact ⟨rep, bed, rfl, claim_C4_totals ['c'] ['N', 'A'] rep bed hout⟩

/-! ## `reordercontigs.py` — the contig reorder tool -/

/-- `reordercontigs.py`, `parse_fasta`: collect `(full header, sequence)`
records in file order.  Headers are `line[1:].strip()`; sequence lines are
stripped and concatenated.  Lines are modelled newline-free, so Python's
`rstrip('\n')` is the identity.  Duplicate headers stay in the list; the
dict `seqs` keyed by header is modelled by `seqOf`, which keeps the last
occurrence's sequence. -/
def parseGoRe : List (List Char) → Option (List Char) → List (List Char) →
    List (List Char × List Char)
  | [], none, _ => []
  | [], some h, parts => [(h, parts.flatten)]
  | ln :: rest, cur, parts =>
    if ln = [] then parseGoRe rest cur parts
    else if ln.head? = some '>' then
      match cur with
      | none => parseGoRe rest (some (stripPy (ln.drop 1))) []
      | some h => (h, parts.flatten) :: parseGoRe rest (some (stripPy (ln.drop 1))) []
    else
      parseGoRe rest cur (parts ++ [stripPy ln])

/-- `parse_fasta` of `reordercontigs.py` over the lines of the input file. -/
def parseReorder (lines : List (List Char)) : List (List Char × List Char) :=
  parseGoRe lines none []

/-- The dict access `seqs[h]`: the sequence of the last record carrying the
header `h` (`[]` when no record does; the tool only looks up headers that
exist). -/
def seqOf (pairs : List (List Char × List Char)) (h : List Char) : List Char :=
  match (pairs.filter (fun p => decide (p.1 = h))).getLast? with
  | none => []
  | some p => p.2

/-- `read_order_list`: strip each line, skip blanks and `#` comments, and
drop one leading `>` (stripping again), keeping duplicates and order. -/
def readOrderList (lines : List (List Char)) : List (List Char) :=
  lines.foldr
    (fun ln acc =>
      let s := stripPy ln
      if s = [] then acc
      else if s.head? = some '#' then acc
      else if s.head? = some '>' then stripPy (s.drop 1) :: acc
      else s :: acc)
    []

/-- The slicing loop `for i in range(0, len(seq), wrap): seq[i:i+wrap]`,
written with an explicit bound on the number of iterations so that the
recursion is structural: each slice consumes at least one character, so a
bound equal to the sequence length (see `chunksBy`) is never exhausted and
the fuel-out arm is unreachable (`chunksGo_fuel`). -/
def chunksGo (w : Nat) : Nat → List Char → List (List Char)
  | _, [] => []
  | 0, _ :: _ => []
  | n + 1, c :: cs => (c :: cs.take (w - 1)) :: chunksGo w n (cs.drop (w - 1))

/-- The slices `seq[i:i+w]` for `i = 0, w, 2w, ...`. -/
def chunksBy (w : Nat) (l : List Char) : List (List Char) :=
  chunksGo w l.length l

/-- `write_seq`: the lines written for one record — the `'>'`-prefixed
header line, then the sequence in fixed-width slices when `wrap > 0`
(Python's `if wrap and wrap > 0`), else the whole sequence as one line. -/
def write_seq (header seq : List Char) (wrap : Int) : List (List Char) :=
  ('>' :: header) :: (if 0 < wrap then chunksBy wrap.toNat seq else [seq])

/-- The lines of the whole output file: `write_seq` applied to each record
in order. -/
def serializeFasta (recs : List (List Char × List Char)) (wrap : Int) : List (List Char) :=
  (recs.map (fun r => write_seq r.1 r.2 wrap)).flatten

/-- One iteration of the matching loop of `main`: resolve one order entry
against the not-yet-consumed headers.  First an exact full-header match
(`entry in seqs and entry not in used`); otherwise the first-token index
(`name_to_headers`, modelled by filtering the header list, which lists the
headers sharing a token in original file order) searched for the first
header not yet used; `if choice:` is Python truthiness, so an empty-string
choice would be rejected. -/
def resolveEntry (headers used : List (List Char)) (entry : List Char) :
    Option (List Char) :=
  if entry ∈ headers ∧ entry ∉ used then some entry
  else
    match (headers.filter (fun h => decide (firstTok h = entry))).find?
        (fun h => decide (h ∉ used)) with
    | some choice => if choice ≠ [] then some choice else none
    | none => none

/-- The loop state is `(ordered_headers, used, not_found)`; `used` is the
Python set, modelled as the list of consumed headers. -/
def matchStep (headers : List (List Char))
    (st : List (List Char) × List (List Char) × List (List Char))
    (entry : List Char) :
    List (List Char) × List (List Char) × List (List Char) :=
  match resolveEntry headers st.2.1 entry with
  | some ch => (st.1 ++ [ch], ch :: st.2.1, st.2.2)
  | none => (st.1, st.2.1, st.2.2 ++ [entry])

/-- The whole matching loop over the order entries. -/
def matchLoop (headers : List (List Char)) (entries : List (List Char)) :
    List (List Char) × List (List Char) × List (List Char) :=
  entries.foldl (matchStep headers) ([], [], [])

/-- `main` of `reordercontigs.py`, from parsed records and order entries to
the output records.  `.error "exit1"` models `sys.exit(1)` on a FASTA with
no records; `.error "IndexError"` models the `h.split()[0]` crash while
building the first-token index when some header has no token (an empty or
all-whitespace header).  On success the ordered records are written first,
then the unconsumed records in original file order. -/
def reorderRun (pairs : List (List Char × List Char)) (order : List (List Char)) :
    Except String (List (List Char × List Char)) :=
  let headers := pairs.map Prod.fst
  if headers.isEmpty then .error "exit1"
  else if headers.any (fun h => decide (firstTok h = [])) then .error "IndexError"
  else
    let st := matchLoop headers order
    .ok ((st.1 ++ headers.filter (fun h => decide (h ∉ st.2.1))).map
      (fun h => (h, seqOf pairs h)))

/-- The records actually written to the output file: none when the tool
exits or crashes before opening it. -/
def writtenRecords (pairs : List (List Char × List Char)) (order : List (List Char)) :
    List (List Char × List Char) :=
  match reorderRun pairs order with
  | .ok out => out
  | .error _ => []

/-- The whole tool: parse the FASTA lines, then reorder. -/
def reorderTool (lines : List (List Char)) (order : List (List Char)) :
    Except String (List (List Char × List Char)) :=
  reorderRun (parseReorder lines) order

/-! ### The sequence writer -/

/-- The iteration bound of `chunksGo` is irrelevant once it is at least the
length of the list. -/
theorem chunksGo_fuel (w : Nat) : ∀ (n m : Nat) (l : List Char),
    l.length ≤ n → l.length ≤ m → chunksGo w n l = chunksGo w m l := by
  intro n
  induction n with
  | zero =>
    intro m l hn _
    have : l = [] := List.eq_nil_of_length_eq_zero (by omega)
    subst this
    cases m <;> rfl
  | succ n ih =>
    intro m l hn hm
    cases l with
    | nil => cases m <;> rfl
    | cons c cs =>
      cases m with
      | zero => simp at hm
      | succ m =>
        simp only [chunksGo]
        congr 1
        exact ih m (cs.drop (w - 1))
          (by simp only [List.length_drop]; simp at hn; omega)
          (by simp only [List.length_drop]; simp at hm; omega)

theorem chunksBy_nil (w : Nat) : chunksBy w [] = [] := rfl

theorem chunksBy_cons (w : Nat) (c : Char) (cs : List Char) :
    chunksBy w (c :: cs) = (c :: cs.take (w - 1)) :: chunksBy w (cs.drop (w - 1)) := by
  unfold chunksBy
  simp only [List.length_cons, chunksGo]
  congr 1
  exact chunksGo_fuel w cs.length (cs.drop (w - 1)).length (cs.drop (w - 1))
    (by simp only [List.length_drop]; omega) (le_refl _)

/-- The slices concatenate back to the sequence. -/
theorem chunksBy_flatten (w : Nat) : ∀ (l : List Char), (chunksBy w l).flatten = l := by
  suffices H : ∀ (n : Nat) (l : List Char), l.length ≤ n → (chunksBy w l).flatten = l by
    exact fun l => H l.length l (le_refl _)
  intro n
  induction n with
  | zero =>
    intro l hl
    have : l = [] := List.eq_nil_of_length_eq_zero (by omega)
    subst this
    rfl
  | succ n ih =>
    intro l hl
    cases l with
    | nil => rfl
    | cons c cs =>
      rw [chunksBy_cons]
      simp only [List.flatten_cons]
      rw [ih (cs.drop (w - 1)) (by simp only [List.length_drop]; simp at hl; omega)]
      simp [List.take_append_drop]

/-- Every slice is nonempty and no longer than the width. -/
theorem chunksBy_mem_len (w : Nat) (hw : 0 < w) : ∀ (l : List Char), ∀ ch ∈ chunksBy w l,
    ch.length ≤ w ∧ ch ≠ [] := by
  suffices H : ∀ (n : Nat) (l : List Char), l.length ≤ n →
      ∀ ch ∈ chunksBy w l, ch.length ≤ w ∧ ch ≠ [] by
    exact fun l => H l.length l (le_refl _)
  intro n
  induction n with
  | zero =>
    intro l hl ch hch
    have : l = [] := List.eq_nil_of_length_eq_zero (by omega)
    subst this
    simp [chunksBy_nil] at hch
  | succ n ih =>
    intro l hl ch hch
    cases l with
    | nil => simp [chunksBy_nil] at hch
    | cons c cs =>
      rw [chunksBy_cons] at hch
      rcases List.mem_cons.mp hch with rfl | hch
      · constructor
        · simp only [List.length_cons, List.length_take]
          omega
        · simp
      · exact ih (cs.drop (w - 1))
          (by simp only [List.length_drop]; simp at hl; omega) ch hch

/-- `chunksBy` of a nonempty list is nonempty. -/
theorem chunksBy_eq_nil_iff (w : Nat) (l : List Char) : chunksBy w l = [] ↔ l = [] := by
  cases l with
  | nil => simp [chunksBy_nil]
  | cons c cs =>
    rw [chunksBy_cons]
    simp

/-- All slices except possibly the last have length exactly the width
(positive width). -/
theorem chunksBy_dropLast_len (w : Nat) (hw : 0 < w) : ∀ (l : List Char),
    ∀ ch ∈ (chunksBy w l).dropLast, ch.length = w := by
  suffices H : ∀ (n : Nat) (l : List Char), l.length ≤ n →
      ∀ ch ∈ (chunksBy w l).dropLast, ch.length = w by
    exact fun l => H l.length l (le_refl _)
  intro n
  induction n with
  | zero =>
    intro l hl ch hch
    have : l = [] := List.eq_nil_of_length_eq_zero (by omega)
    subst this
    simp [chunksBy_nil] at hch
  | succ n ih =>
    intro l hl ch hch
    cases l with
    | nil => simp [chunksBy_nil] at hch
    | cons c cs =>
      rw [chunksBy_cons] at hch
      rcases hrest : chunksBy w (cs.drop (w - 1)) with _ | ⟨r, rest⟩
      · rw [hrest] at hch
        simp at hch
      · rw [hrest] at hch
        simp only [List.dropLast_cons₂, List.mem_cons] at hch
        rcases hch with rfl | hch
        · have hne : cs.drop (w - 1) ≠ [] := by
            intro hcon
            rw [hcon, chunksBy_nil] at hrest
            cases hrest
          have hlen : w - 1 < cs.length := by
            by_contra hcon
            exact hne (List.drop_eq_nil_of_le (by omega))
          simp only [List.length_cons, List.length_take]
          omega
        · have := ih (cs.drop (w - 1))
            (by simp only [List.length_drop]; simp at hl; omega) ch
          rw [hrest] at this
          exact this (by simpa using hch)

/-- Every character of a slice is a character of the sequence. -/
theorem chunksBy_subset (w : Nat) : ∀ (l : List Char), ∀ ch ∈ chunksBy w l,
    ∀ c ∈ ch, c ∈ l := by
  suffices H : ∀ (n : Nat) (l : List Char), l.length ≤ n →
      ∀ ch ∈ chunksBy w l, ∀ c ∈ ch, c ∈ l by
    exact fun l => H l.length l (le_refl _)
  intro n
  induction n with
  | zero =>
    intro l hl ch hch
    have : l = [] := List.eq_nil_of_length_eq_zero (by omega)
    subst this
    simp [chunksBy_nil] at hch
  | succ n ih =>
    intro l hl ch hch c hc
    cases l with
    | nil => simp [chunksBy_nil] at hch
    | cons x cs =>
      rw [chunksBy_cons] at hch
      rcases List.mem_cons.mp hch with rfl | hch
      · rcases List.mem_cons.mp hc with rfl | hc
        · exact List.mem_cons_self _ _
        · exact List.mem_cons_of_mem _ (List.take_subset _ _ hc)
      · have := ih (cs.drop (w - 1))
          (by simp only [List.length_drop]; simp at hl; omega) ch hch c hc
        exact List.mem_cons_of_mem _ (List.drop_subset _ _ this)

/-- Claim C9: `write_seq` emits the `'>'`-prefixed header line first; when
`W > 0` the sequence follows split into consecutive lines whose
concatenation is the sequence, every line except the last of exactly `W`
characters and every line nonempty of at most `W` characters; when
`W ≤ 0` the whole sequence follows as a single line. -/
theorem claim_C9_write_seq_contract (header seq : List Char) (wrap : Int) :
    ∃ body, write_seq header seq wrap = ('>' :: header) :: body ∧
      (0 < wrap →
        body.flatten = seq ∧
        (∀ l ∈ body.dropLast, l.length = wrap.toNat) ∧
        (∀ l ∈ body, l.length ≤ wrap.toNat ∧ l ≠ [])) ∧
      (wrap ≤ 0 → body = [seq]) := by
  by_cases hw : 0 < wrap
  · refine ⟨chunksBy wrap.toNat seq, by simp [write_seq, hw], ?_, ?_⟩
    · intro _
      have hwn : 0 < wrap.toNat := by omega
      exact ⟨chunksBy_flatten wrap.toNat seq,
        fun l hl => chunksBy_dropLast_len wrap.toNat hwn seq l hl,
        fun l hl => chunksBy_mem_len wrap.toNat hwn seq l hl⟩
    · intro hcon
      omega
  · refine ⟨[seq], by simp [write_seq, hw], ?_, fun _ => rfl⟩
    intro hcon
    omega

/-! ### The matching engine -/

/-- Searching a filtered list is searching for the conjunction. -/
theorem find?_filter_eq (l : List (List Char)) (p q : List Char → Bool) :
    (l.filter q).find? p = (l.filter (fun x => q x && p x)).head? := by
  induction l with
  | nil => rfl
  | cons x xs ih =>
    by_cases hq : q x
    · by_cases hp : p x
      · simp [List.filter_cons, hq, hp, List.find?_cons]
      · simp [List.filter_cons, hq, hp, List.find?_cons, ih]
    · simp [List.filter_cons, hq, ih]

/-- The resolution policy exactly as the specification words it: an exact
full-header match if that header is unconsumed, otherwise the first header
in original file order whose first token equals the entry and which is
unconsumed, otherwise nothing. -/
def resolvePolicy (headers used : List (List Char)) (entry : List Char) :
    Option (List Char) :=
  if entry ∈ headers ∧ entry ∉ used then some entry
  else
    (headers.filter (fun h => decide (firstTok h = entry) && decide (h ∉ used))).head?

/-- A resolved header is a real header not yet consumed. -/
theorem resolveEntry_some (headers used : List (List Char)) (entry ch : List Char)
    (h : resolveEntry headers used entry = some ch) :
    ch ∈ headers ∧ ch ∉ used := by
  unfold resolveEntry at h
  by_cases hex : entry ∈ headers ∧ entry ∉ used
  · rw [if_pos hex] at h
    injection h with h
    subst h
    exact hex
  · rw [if_neg hex] at h
    cases hfind : (headers.filter (fun h => decide (firstTok h = entry))).find?
        (fun h => decide (h ∉ used)) with
    | none =>
      simp only [hfind] at h
      cases h
    | some c =>
      simp only [hfind] at h
      by_cases hc : c ≠ []
      · rw [if_pos hc] at h
        injection h with h
        subst h
        have hmem := List.mem_of_find?_eq_some hfind
        have hpred := List.find?_some hfind
        exact ⟨(List.mem_filter.mp hmem).1, by simpa using hpred⟩
      · rw [if_neg hc] at h
        cases h

/-- An empty list of characters has no first token. -/
theorem firstTok_nil : firstTok [] = [] := rfl

/-- The head given by `head?` is a member. -/
theorem mem_of_head?_some {α : Type} (l : List α) (a : α) (h : l.head? = some a) :
    a ∈ l := by
  cases l with
  | nil => cases h
  | cons x xs =>
    simp only [List.head?_cons] at h
    injection h with h
    exact h ▸ List.mem_cons_self x xs

/-- Claim C3, per-entry part: when every header has a first token (the tool
would have crashed building the index otherwise), the implemented
resolution agrees with the spec's two-tier policy for every entry and every
consumed-set. -/
theorem resolveEntry_eq_policy (headers used : List (List Char)) (entry : List Char)
    (hne : ∀ h ∈ headers, firstTok h ≠ []) :
    resolveEntry headers used entry = resolvePolicy headers used entry := by
  unfold resolveEntry resolvePolicy
  by_cases hex : entry ∈ headers ∧ entry ∉ used
  · rw [if_pos hex, if_pos hex]
  · rw [if_neg hex, if_neg hex]
    rw [find?_filter_eq]
    cases hhd : (headers.filter
        (fun h => decide (firstTok h = entry) && decide (h ∉ used))).head? with
    | none => simp only [hhd]
    | some c =>
      simp only [hhd]
      have hmem : c ∈ headers.filter
          (fun h => decide (firstTok h = entry) && decide (h ∉ used)) :=
        mem_of_head?_some _ c hhd
      have hch : c ∈ headers := (List.mem_filter.mp hmem).1
      have hcne : c ≠ [] := by
        intro hcon
        exact hne c hch (by rw [hcon]; exact firstTok_nil)
      rw [if_pos hcne]

/-- One step of the loop only adds the resolved header to both `ordered`
and `used`, or the entry to `not_found`. -/
theorem matchFold_inv (headers : List (List Char)) :
    ∀ (entries : List (List Char)) (ord used nf : List (List Char)),
    (∀ x, x ∈ used ↔ x ∈ ord) → ord.Nodup → (∀ x ∈ ord, x ∈ headers) →
    (∀ x, x ∈ (entries.foldl (matchStep headers) (ord, used, nf)).2.1 ↔
        x ∈ (entries.foldl (matchStep headers) (ord, used, nf)).1) ∧
    (entries.foldl (matchStep headers) (ord, used, nf)).1.Nodup ∧
    (∀ x ∈ (entries.foldl (matchStep headers) (ord, used, nf)).1, x ∈ headers) ∧
    ∃ t, (entries.foldl (matchStep headers) (ord, used, nf)).1 = ord ++ t := by
  intro entries
  induction entries with
  | nil =>
    intro ord used nf h1 h2 h3
    exact ⟨h1, h2, h3, [], by simp⟩
  | cons e es ih =>
    intro ord used nf h1 h2 h3
    simp only [List.foldl_cons]
    cases hres : resolveEntry headers used e with
    | none =>
      rw [show matchStep headers (ord, used, nf) e = (ord, used, nf ++ [e]) from by
        simp [matchStep, hres]]
      exact ih ord used (nf ++ [e]) h1 h2 h3
    | some ch =>
      obtain ⟨hchh, hchu⟩ := resolveEntry_some headers used e ch hres
      rw [show matchStep headers (ord, used, nf) e = (ord ++ [ch], ch :: used, nf) from by
        simp [matchStep, hres]]
      have h1' : ∀ x, x ∈ ch :: used ↔ x ∈ ord ++ [ch] := by
        intro x
        simp only [List.mem_cons, List.mem_append, List.mem_singleton]
        rw [h1 x]
        tauto
      have h2' : (ord ++ [ch]).Nodup := by
        rw [List.nodup_append]
        refine ⟨h2, List.nodup_singleton ch, ?_⟩
        intro a ha hb
        simp only [List.mem_singleton] at hb
        subst hb
        exact hchu ((h1 a).mpr ha)
      have h3' : ∀ x ∈ ord ++ [ch], x ∈ headers := by
        intro x hx
        rcases List.mem_append.mp hx with hx | hx
        · exact h3 x hx
        · simp only [List.mem_singleton] at hx
          subst hx
          exact hchh
      obtain ⟨i1, i2, i3, t, ht⟩ := ih (ord ++ [ch]) (ch :: used) nf h1' h2' h3'
      exact ⟨i1, i2, i3, ch :: t, by rw [ht]; simp⟩

/-- Claim C3: the Reordering Engine resolves each order entry by exactly
the spec's policy — exact unconsumed full-header match first, otherwise the
first header in original file order whose first token equals the entry and
which is unconsumed, otherwise not found — and consumption guarantees that
at most one order entry ever resolves to a given header (the list of
resolved headers has no duplicates). -/
theorem claim_C3_resolution_policy (headers used entries : List (List Char))
    (entry : List Char) (hne : ∀ h ∈ headers, firstTok h ≠ []) :
    resolveEntry headers used entry = resolvePolicy headers used entry ∧
    (matchLoop headers entries).1.Nodup := by
  refine ⟨resolveEntry_eq_policy headers used entry hne, ?_⟩
  exact (matchFold_inv headers entries [] [] [] (by simp) List.nodup_nil
    (by simp)).2.1

/-- Witness for C3 at a concrete header list, consumed-set and entry. -/
theorem claim_C3_resolution_policy_witness :
    resolveEntry [['a'], ['a', ' ', 'x'], ['b']] [['a']] ['a'] =
      resolvePolicy [['a'], ['a', ' ', 'x'], ['b']] [['a']] ['a'] ∧
    (matchLoop [['a'], ['a', ' ', 'x'], ['b']] [['a'], ['a'], ['c']]).1.Nodup :=
  claim_C3_resolution_policy [['a'], ['a', ' ', 'x'], ['b']] [['a']]
    [['a'], ['a'], ['c']] ['a'] (by decide)

/-- When the FASTA has records and every header has a first token, `main`
reaches the output phase and writes the matched headers first, then the
unconsumed headers in original file order, each with its sequence. -/
theorem reorderRun_ok (pairs : List (List Char × List Char)) (order : List (List Char))
    (hne : pairs.map Prod.fst ≠ [])
    (htok : ∀ h ∈ pairs.map Prod.fst, firstTok h ≠ []) :
    reorderRun pairs order = .ok
      (((matchLoop (pairs.map Prod.fst) order).1 ++
        (pairs.map Prod.fst).filter
          (fun h => decide (h ∉ (matchLoop (pairs.map Prod.fst) order).2.1))).map
        (fun h => (h, seqOf pairs h))) := by
  have h1 : ¬ ((pairs.map Prod.fst).isEmpty = true) := by
    simpa [List.isEmpty_iff] using hne
  have h2 : ¬ ((pairs.map Prod.fst).any (fun h => decide (firstTok h = [])) = true) := by
    simp only [List.any_eq_true, not_exists]
    intro x
    intro hx
    rcases hx with ⟨hxm, hxd⟩
    exact htok x hxm (by simpa using hxd)
  simp only [reorderRun]
  rw [if_neg h1, if_neg h2]

/-- Inversion: a successful run implies the two guards passed and describes
the output. -/
theorem reorderRun_ok_inv (pairs : List (List Char × List Char))
    (order : List (List Char)) (out : List (List Char × List Char))
    (h : reorderRun pairs order = .ok out) :
    pairs.map Prod.fst ≠ [] ∧ (∀ x ∈ pairs.map Prod.fst, firstTok x ≠ []) ∧
    out = ((matchLoop (pairs.map Prod.fst) order).1 ++
      (pairs.map Prod.fst).filter
        (fun x => decide (x ∉ (matchLoop (pairs.map Prod.fst) order).2.1))).map
      (fun x => (x, seqOf pairs x)) := by
  simp only [reorderRun] at h
  by_cases h1 : (pairs.map Prod.fst).isEmpty = true
  · rw [if_pos h1] at h
    cases h
  · rw [if_neg h1] at h
    by_cases h2 : (pairs.map Prod.fst).any (fun x => decide (firstTok x = [])) = true
    · rw [if_pos h2] at h
      cases h
    · rw [if_neg h2] at h
      injection h with h
      refine ⟨by simpa [List.isEmpty_iff] using h1, ?_, h.symm⟩
      intro x hx hcon
      apply h2
      simp only [List.any_eq_true]
      exact ⟨x, hx, by simp [hcon]⟩

/-- A member of a duplicate-free list is counted exactly once. -/
theorem count_one_of_nodup_mem {α : Type} [BEq α] [LawfulBEq α] (l : List α) (a : α)
    (hnd : l.Nodup) (ha : a ∈ l) : l.count a = 1 := by
  induction l with
  | nil => cases ha
  | cons x xs ih =>
    rw [List.count_cons]
    rcases List.mem_cons.mp ha with rfl | ha'
    · have hz : xs.count a = 0 :=
        List.count_eq_zero_of_not_mem (List.nodup_cons.mp hnd).1
      simp [hz]
    · have hax : ¬ (x == a) = true := by
        intro hcon
        have hxa : x = a := by simpa using hcon
        exact (List.nodup_cons.mp hnd).1 (hxa ▸ ha')
      rw [ih (List.nodup_cons.mp hnd).2 ha']
      simp [hax]

/-- Projecting the headers back out of the written records. -/
theorem map_fst_pairing (L : List (List Char)) (f : List Char → List Char) :
    (L.map (fun h => (h, f h))).map Prod.fst = L := by
  induction L with
  | nil => rfl
  | cons x xs ih => simp only [List.map_cons, ih]

/-- The matching loop's invariants from the empty initial state: the used
set and the ordered list have the same members, the ordered list has no
duplicates, and every ordered header is a real header. -/
theorem matchLoop_inv (headers entries : List (List Char)) :
    (∀ x, x ∈ (matchLoop headers entries).2.1 ↔ x ∈ (matchLoop headers entries).1) ∧
    (matchLoop headers entries).1.Nodup ∧
    (∀ x ∈ (matchLoop headers entries).1, x ∈ headers) := by
  unfold matchLoop
  obtain ⟨a, b, c, -⟩ := matchFold_inv headers entries [] [] []
    (by simp) List.nodup_nil (by simp)
  exact ⟨a, b, c⟩

/-- Claim C2, amended: for an input whose headers are pairwise distinct and
each contain a token (nonempty after stripping — otherwise the tool crashes
building its index and writes nothing), every input header appears exactly
once among the written records, whatever the order list contains. -/
theorem claim_C2_each_header_once (pairs : List (List Char × List Char))
    (order : List (List Char))
    (hnd : (pairs.map Prod.fst).Nodup)
    (htok : ∀ h ∈ pairs.map Prod.fst, firstTok h ≠ []) :
    ∀ h ∈ pairs.map Prod.fst,
      ((writtenRecords pairs order).map Prod.fst).count h = 1 := by
  intro h hh
  by_cases hne : pairs.map Prod.fst = []
  · rw [hne] at hh
    cases hh
  · have hok := reorderRun_ok pairs order hne htok
    unfold writtenRecords
    rw [hok, map_fst_pairing]
    obtain ⟨i1, i2, i3⟩ := matchLoop_inv (pairs.map Prod.fst) order
    rw [List.count_append]
    by_cases hu : h ∈ (matchLoop (pairs.map Prod.fst) order).1
    · have hc1 := count_one_of_nodup_mem _ h i2 hu
      have hc2 : ((pairs.map Prod.fst).filter
          (fun x => decide (x ∉ (matchLoop (pairs.map Prod.fst) order).2.1))).count h
          = 0 := by
        apply List.count_eq_zero_of_not_mem
        intro hcon
        have hsplit := List.mem_filter.mp hcon
        have hnotin : h ∉ (matchLoop (pairs.map Prod.fst) order).2.1 := by
          simpa using hsplit.2
        exact hnotin ((i1 h).mpr hu)
      rw [hc1, hc2]
    · have hc1 := List.count_eq_zero_of_not_mem hu
      have hmemf : h ∈ (pairs.map Prod.fst).filter
          (fun x => decide (x ∉ (matchLoop (pairs.map Prod.fst) order).2.1)) := by
        apply List.mem_filter.mpr
        refine ⟨hh, ?_⟩
        simp only [decide_eq_true_eq]
        intro hcon
        exact hu ((i1 h).mp hcon)
      have hc2 := count_one_of_nodup_mem _ h (hnd.filter _) hmemf
      rw [hc1, hc2]

/-- Claim C2, counterexample to the claim as stated: a FASTA whose one
header is empty has pairwise-distinct headers, yet the tool crashes while
building its first-token index (`"".split()[0]`), writes nothing, and the
header appears zero times in the output. -/
theorem claim_C2_counterexample :
    ¬ ∀ h ∈ ([([], ['A'])] : List (List Char × List Char)).map Prod.fst,
      ((writtenRecords [([], ['A'])] []).map Prod.fst).count h = 1 := by
  decide

/-- Witness for the amended C2 at a concrete input with a duplicate order
entry and a header absent from the order list. -/
theorem claim_C2_each_header_once_witness :
    ((writtenRecords [(['a'], ['A']), (['b'], ['B'])] [['b'], ['b'], ['x']]).map
      Prod.fst).count ['a'] = 1 :=
  claim_C2_each_header_once [(['a'], ['A']), (['b'], ['B'])] [['b'], ['b'], ['x']]
    (by decide) (by decide) ['a'] (by decide)

/-- `seqs[h]` for the head record when its header is unique. -/
theorem seqOf_cons_self (p : List Char × List Char) (ps : List (List Char × List Char))
    (hp : p.1 ∉ ps.map Prod.fst) : seqOf (p :: ps) p.1 = p.2 := by
  unfold seqOf
  have hfe : ps.filter (fun q => decide (q.1 = p.1)) = [] := by
    rw [List.filter_eq_nil_iff]
    intro q hq
    simp only [decide_eq_true_eq]
    intro hcon
    exact hp (hcon ▸ List.mem_map_of_mem Prod.fst hq)
  rw [List.filter_cons, if_pos (by simp)]
  rw [hfe]
  rfl

/-- `seqs[h]` skips a head record with a different header. -/
theorem seqOf_cons_ne (p : List Char × List Char) (ps : List (List Char × List Char))
    (h : List Char) (hne : h ≠ p.1) : seqOf (p :: ps) h = seqOf ps h := by
  unfold seqOf
  rw [List.filter_cons, if_neg (by simpa using fun hcon => hne hcon.symm)]

/-- With pairwise-distinct headers, pairing every header with its looked-up
sequence reproduces the parsed records. -/
theorem map_pairing_eq_pairs (pairs : List (List Char × List Char))
    (hnd : (pairs.map Prod.fst).Nodup) :
    (pairs.map Prod.fst).map (fun h => (h, seqOf pairs h)) = pairs := by
  induction pairs with
  | nil => rfl
  | cons p ps ih =>
    simp only [List.map_cons] at hnd ⊢
    have hp : p.1 ∉ ps.map Prod.fst := (List.nodup_cons.mp hnd).1
    rw [seqOf_cons_self p ps hp]
    have hmapeq : (ps.map Prod.fst).map (fun h => (h, seqOf (p :: ps) h))
        = (ps.map Prod.fst).map (fun h => (h, seqOf ps h)) := by
      apply List.map_congr_left
      intro h hh
      rw [seqOf_cons_ne p ps h (by intro hcon; exact hp (hcon ▸ hh))]
    rw [hmapeq, ih (List.nodup_cons.mp hnd).2]

/-- With pairwise-distinct headers, feeding the header list itself as order
entries makes every entry an exact match in sequence: the loop returns the
full header list and consumes every header. -/
theorem matchFold_exact (headers : List (List Char)) (hnd : headers.Nodup) :
    ∀ (suf pre used nf : List (List Char)),
    headers = pre ++ suf → (∀ x, x ∈ used ↔ x ∈ pre) →
    (suf.foldl (matchStep headers) (pre, used, nf)).1 = headers ∧
    (∀ x, x ∈ (suf.foldl (matchStep headers) (pre, used, nf)).2.1 ↔ x ∈ headers) := by
  intro suf
  induction suf with
  | nil =>
    intro pre used nf hsplit hused
    simp only [List.foldl_nil]
    constructor
    · rw [hsplit, List.append_nil]
    · intro x
      rw [hused x, hsplit, List.append_nil]
  | cons e es ih =>
    intro pre used nf hsplit hused
    have hem : e ∈ headers := by
      rw [hsplit]
      exact List.mem_append.mpr (Or.inr (List.mem_cons_self e es))
    have henp : e ∉ pre := by
      have hnd' := hsplit ▸ hnd
      obtain ⟨-, -, hdisj⟩ := List.nodup_append.mp hnd'
      intro hcon
      exact hdisj hcon (List.mem_cons_self e es)
    have henu : e ∉ used := fun hcon => henp ((hused e).mp hcon)
    have hres : resolveEntry headers used e = some e := by
      unfold resolveEntry
      rw [if_pos ⟨hem, henu⟩]
    simp only [List.foldl_cons]
    rw [show matchStep headers (pre, used, nf) e = (pre ++ [e], e :: used, nf) from by
      simp [matchStep, hres]]
    apply ih (pre ++ [e]) (e :: used) nf
    · rw [hsplit]
      simp
    · intro x
      simp only [List.mem_cons, List.mem_append, List.mem_singleton]
    
      rw [hused x]
      tauto

/-- Claim C7, amended: for a FASTA with at least one record, pairwise
distinct headers, and every header carrying a token, reordering with the
order list equal to the FASTA's own header sequence reproduces exactly the
parsed records, in order. -/
theorem claim_C7_roundtrip (pairs : List (List Char × List Char))
    (hne : pairs ≠ [])
    (hnd : (pairs.map Prod.fst).Nodup)
    (htok : ∀ h ∈ pairs.map Prod.fst, firstTok h ≠ []) :
    reorderRun pairs (pairs.map Prod.fst) = .ok pairs := by
  have hne' : pairs.map Prod.fst ≠ [] := by
    intro hcon
    exact hne (List.map_eq_nil_iff.mp hcon)
  rw [reorderRun_ok pairs _ hne' htok]
  obtain ⟨hord, husedmem⟩ := matchFold_exact (pairs.map Prod.fst) hnd
    (pairs.map Prod.fst) [] [] [] (by simp) (by simp)
  have hloop1 : (matchLoop (pairs.map Prod.fst) (pairs.map Prod.fst)).1
      = pairs.map Prod.fst := hord
  have husedmem' : ∀ x, x ∈ (matchLoop (pairs.map Prod.fst) (pairs.map Prod.fst)).2.1
      ↔ x ∈ pairs.map Prod.fst := husedmem
  have hfilter : (pairs.map Prod.fst).filter
      (fun h => decide (h ∉ (matchLoop (pairs.map Prod.fst) (pairs.map Prod.fst)).2.1))
      = [] := by
    rw [List.filter_eq_nil_iff]
    intro x hx
    simp only [decide_eq_true_eq, not_not]
    exact (husedmem' x).mpr hx
  rw [hloop1, hfilter, List.append_nil, map_pairing_eq_pairs pairs hnd]

/-- Claim C7, counterexample to the claim as stated: a FASTA with a
duplicated header does not round-trip — the two records collapse into one,
carrying the last occurrence's sequence. -/
theorem claim_C7_counterexample :
    writtenRecords [(['a'], ['A']), (['a'], ['C'])] [['a'], ['a']]
      ≠ [(['a'], ['A']), (['a'], ['C'])] ∧
    writtenRecords [(['a'], ['A']), (['a'], ['C'])] [['a'], ['a']]
      = [(['a'], ['C'])] := by
  constructor
  · decide
  · decide

/-- Witness for the amended C7 at a concrete two-record FASTA. -/
theorem claim_C7_roundtrip_witness :
    reorderRun [(['a'], ['A']), (['b'], ['B'])]
      ([(['a'], ['A']), (['b'], ['B'])].map Prod.fst)
      = .ok [(['a'], ['A']), (['b'], ['B'])] :=
  claim_C7_roundtrip [(['a'], ['A']), (['b'], ['B'])] (by decide) (by decide) (by decide)

/-! ### Idempotence of the reorder tool -/

/-- Dropping a prefix twice drops it once. -/
theorem dropWhile_idem (p : Char → Bool) (l : List Char) :
    (l.dropWhile p).dropWhile p = l.dropWhile p := by
  induction l with
  | nil => rfl
  | cons c cs ih =>
    by_cases h : p c = true
    · rw [List.dropWhile_cons_of_pos h, ih]
    · rw [List.dropWhile_cons_of_neg (by simpa using h),
        List.dropWhile_cons_of_neg (by simpa using h)]

/-- `rstrip` is idempotent. -/
theorem rstripPy_idem (l : List Char) : rstripPy (rstripPy l) = rstripPy l := by
  unfold rstripPy
  rw [List.reverse_reverse, dropWhile_idem]

/-- The head surviving `dropWhile` fails the predicate. -/
theorem dropWhile_head_not (p : Char → Bool) (l : List Char) :
    ∀ c t, l.dropWhile p = c :: t → p c = false := by
  induction l with
  | nil =>
    intro c t h
    cases h
  | cons x xs ih =>
    intro c t h
    by_cases hx : p x = true
    · rw [List.dropWhile_cons_of_pos hx] at h
      exact ih c t h
    · rw [List.dropWhile_cons_of_neg (by simpa using hx)] at h
      injection h with h1 _
      subst h1
      simpa using hx

/-- `rstrip` keeps a prefix of its argument. -/
theorem rstripPy_append (l : List Char) : ∃ t, l = rstripPy l ++ t := by
  refine ⟨(l.reverse.takeWhile isWS).reverse, ?_⟩
  unfold rstripPy
  rw [← List.reverse_append, List.takeWhile_append_dropWhile, List.reverse_reverse]

/-- The leading-whitespace drop does nothing to an already stripped string. -/
theorem dropWhile_stripPy (l : List Char) :
    (stripPy l).dropWhile isWS = stripPy l := by
  unfold stripPy
  cases hs : rstripPy (l.dropWhile isWS) with
  | nil => rfl
  | cons c t =>
    obtain ⟨ts, hts⟩ := rstripPy_append (l.dropWhile isWS)
    rw [hs] at hts
    have hc : isWS c = false :=
      dropWhile_head_not isWS l c (t ++ ts) (by rw [hts]; simp)
    rw [List.dropWhile_cons_of_neg (by simp [hc])]

/-- `strip` is idempotent. -/
theorem stripPy_idem (l : List Char) : stripPy (stripPy l) = stripPy l := by
  conv_lhs => rw [stripPy, dropWhile_stripPy]
  rw [show stripPy l = rstripPy (l.dropWhile isWS) from rfl, rstripPy_idem]

/-- Every header the reorder parser produces is already stripped. -/
theorem parseGoRe_headers_stripped :
    ∀ (lines : List (List Char)) (cur : Option (List Char)) (parts : List (List Char)),
    (∀ h, cur = some h → stripPy h = h) →
    ∀ p ∈ parseGoRe lines cur parts, stripPy p.1 = p.1 := by
  intro lines
  induction lines with
  | nil =>
    intro cur parts hcur p hp
    cases cur with
    | none => simp [parseGoRe] at hp
    | some h =>
      simp only [parseGoRe, List.mem_singleton] at hp
      subst hp
      exact hcur h rfl
  | cons ln rest ih =>
    intro cur parts hcur p hp
    simp only [parseGoRe] at hp
    by_cases h0 : ln = []
    · rw [if_pos h0] at hp
      exact ih cur parts hcur p hp
    · rw [if_neg h0] at hp
      by_cases hhd : ln.head? = some '>'
      · rw [if_pos hhd] at hp
        cases cur with
        | none =>
          exact ih (some (stripPy (ln.drop 1))) [] (by
            intro h hh
            injection hh with hh
            rw [← hh, stripPy_idem]) p hp
        | some hcurh =>
          rcases List.mem_cons.mp hp with rfl | hp
          · exact hcur hcurh rfl
          · exact ih (some (stripPy (ln.drop 1))) [] (by
              intro h hh
              injection hh with hh
              rw [← hh, stripPy_idem]) p hp
      · rw [if_neg hhd] at hp
        exact ih cur (parts ++ [stripPy ln]) hcur p hp

/-- The accumulated sequence parts do not influence which headers are
parsed. -/
theorem parseGoRe_fst_parts :
    ∀ (L : List (List Char)) (h : List Char) (parts parts' : List (List Char)),
    (parseGoRe L (some h) parts).map Prod.fst
      = (parseGoRe L (some h) parts').map Prod.fst := by
  intro L
  induction L with
  | nil =>
    intro h parts parts'
    rfl
  | cons ln rest ih =>
    intro h parts parts'
    simp only [parseGoRe]
    by_cases h0 : ln = []
    · rw [if_pos h0, if_pos h0]
      exact ih h parts parts'
    · rw [if_neg h0, if_neg h0]
      by_cases hhd : ln.head? = some '>'
      · rw [if_pos hhd, if_pos hhd]
        simp only [List.map_cons]
      · rw [if_neg hhd, if_neg hhd]
        exact ih h (parts ++ [stripPy ln]) (parts' ++ [stripPy ln])

/-- Non-marker lines only extend the current record's sequence; they leave
the parsed header list unchanged. -/
theorem parseGoRe_fst_body :
    ∀ (body L : List (List Char)) (h : List Char) (parts : List (List Char)),
    (∀ ln ∈ body, ln.head? ≠ some '>') →
    (parseGoRe (body ++ L) (some h) parts).map Prod.fst
      = (parseGoRe L (some h) parts).map Prod.fst := by
  intro body
  induction body with
  | nil =>
    intro L h parts _
    rfl
  | cons ln body' ih =>
    intro L h parts hnm
    simp only [List.cons_append, parseGoRe]
    by_cases h0 : ln = []
    · rw [if_pos h0]
      exact ih L h parts (fun l hl => hnm l (List.mem_cons_of_mem _ hl))
    · rw [if_neg h0, if_neg (hnm ln (List.mem_cons_self _ _))]
      simp only [List.append_eq]
      rw [ih L h (parts ++ [stripPy ln]) (fun l hl => hnm l (List.mem_cons_of_mem _ hl))]
      exact parseGoRe_fst_parts L h (parts ++ [stripPy ln]) parts

/-- When the sequence contains no `'>'`, none of the body lines `write_seq`
produces can begin with the record marker. -/
theorem write_seq_body_no_marker (_hd seq : List Char) (w : Int) (hgt : '>' ∉ seq) :
    ∀ ln ∈ (if 0 < w then chunksBy w.toNat seq else [seq]), ln.head? ≠ some '>' := by
  intro ln hln
  by_cases hw : 0 < w
  · rw [if_pos hw] at hln
    cases ln with
    | nil => simp
    | cons c cs =>
      simp only [List.head?_cons, ne_eq, Option.some_inj]
      intro hcon
      subst hcon
      exact hgt (chunksBy_subset w.toNat seq _ hln '>' (List.mem_cons_self _ _))
  · rw [if_neg hw] at hln
    simp only [List.mem_singleton] at hln
    subst hln
    cases ln with
    | nil => simp
    | cons c cs =>
      simp only [List.head?_cons, ne_eq, Option.some_inj]
      intro hcon
      subst hcon
      exact hgt (List.mem_cons_self _ _)

/-- Reading back the serialized records with an open record `h`: the parsed
headers are `h` followed by the records' own headers. -/
theorem parse_serialize_fst_go (w : Int) :
    ∀ (recs : List (List Char × List Char)) (h : List Char) (parts : List (List Char)),
    (∀ r ∈ recs, stripPy r.1 = r.1) → (∀ r ∈ recs, '>' ∉ r.2) →
    (parseGoRe (serializeFasta recs w) (some h) parts).map Prod.fst
      = h :: recs.map Prod.fst := by
  intro recs
  induction recs with
  | nil =>
    intro h parts _ _
    rfl
  | cons r rs ih =>
    intro h parts hstr hgt
    have hser : serializeFasta (r :: rs) w
        = ('>' :: r.1) :: ((if 0 < w then chunksBy w.toNat r.2 else [r.2])
            ++ serializeFasta rs w) := by
      simp [serializeFasta, write_seq]
    rw [hser]
    simp only [parseGoRe, if_neg (by simp : ¬ ('>' :: r.1 : List Char) = []),
      if_pos (by simp : ('>' :: r.1 : List Char).head? = some '>')]
    simp only [List.drop_succ_cons, List.drop_zero, List.map_cons]
    rw [hstr r (List.mem_cons_self _ _)]
    rw [parseGoRe_fst_body _ _ r.1 []
      (write_seq_body_no_marker r.1 r.2 w (hgt r (List.mem_cons_self _ _)))]
    rw [ih r.1 [] (fun q hq => hstr q (List.mem_cons_of_mem _ hq))
      (fun q hq => hgt q (List.mem_cons_of_mem _ hq))]

/-- Writing records and parsing the output file recovers exactly the same
header list (sequences may differ only in whitespace/wrapping, which the
headers do not depend on). -/
theorem parse_serialize_fst (w : Int) (recs : List (List Char × List Char))
    (hstr : ∀ r ∈ recs, stripPy r.1 = r.1) (hgt : ∀ r ∈ recs, '>' ∉ r.2) :
    (parseReorder (serializeFasta recs w)).map Prod.fst = recs.map Prod.fst := by
  cases recs with
  | nil => rfl
  | cons r rs =>
    have hser : serializeFasta (r :: rs) w
        = ('>' :: r.1) :: ((if 0 < w then chunksBy w.toNat r.2 else [r.2])
            ++ serializeFasta rs w) := by
      simp [serializeFasta, write_seq]
    unfold parseReorder
    rw [hser]
    simp only [parseGoRe, if_neg (by simp : ¬ ('>' :: r.1 : List Char) = []),
      if_pos (by simp : ('>' :: r.1 : List Char).head? = some '>')]
    simp only [List.drop_succ_cons, List.drop_zero]
    rw [hstr r (List.mem_cons_self _ _)]
    rw [parseGoRe_fst_body _ _ r.1 []
      (write_seq_body_no_marker r.1 r.2 w (hgt r (List.mem_cons_self _ _)))]
    rw [parse_serialize_fst_go w rs r.1 [] (fun q hq => hstr q (List.mem_cons_of_mem _ hq))
      (fun q hq => hgt q (List.mem_cons_of_mem _ hq))]
    rfl

/-- The last element given by `getLast?` is a member. -/
theorem mem_of_getLast?_some {α : Type} : ∀ (l : List α) (a : α),
    l.getLast? = some a → a ∈ l := by
  intro l
  induction l with
  | nil =>
    intro a h
    cases h
  | cons x xs ih =>
    intro a h
    cases xs with
    | nil =>
      simp only [List.getLast?_singleton, Option.some_inj] at h
      exact h ▸ List.mem_cons_self x []
    | cons y ys =>
      rw [List.getLast?_cons_cons] at h
      exact List.mem_cons_of_mem _ (ih a h)

/-- A looked-up sequence is either empty or the sequence of some record. -/
theorem seqOf_eq_nil_or_mem (pairs : List (List Char × List Char)) (h : List Char) :
    seqOf pairs h = [] ∨ ∃ q ∈ pairs, seqOf pairs h = q.2 := by
  unfold seqOf
  cases hl : (pairs.filter (fun p => decide (p.1 = h))).getLast? with
  | none => exact Or.inl rfl
  | some q =>
    refine Or.inr ⟨q, ?_, rfl⟩
    exact List.mem_of_mem_filter (mem_of_getLast?_some _ q hl)

/-- A `find?` that fails on a list fails on every sublist drawn from the
same members. -/
theorem find?_eq_none_of_subset (p : List Char → Bool)
    (l l' : List (List Char)) (hsub : ∀ x ∈ l', x ∈ l)
    (h : l.find? p = none) : l'.find? p = none := by
  rw [List.find?_eq_none] at h ⊢
  exact fun x hx => h x (hsub x hx)

/-- `find?` passes over a block containing no hit. -/
theorem find?_append_none_left (p : List Char → Bool) (l1 l2 : List (List Char))
    (h : l1.find? p = none) : (l1 ++ l2).find? p = l2.find? p := by
  induction l1 with
  | nil => rfl
  | cons x xs ih =>
    by_cases hx : p x = true
    · rw [List.find?_cons_of_pos _ hx] at h
      cases h
    · rw [List.find?_cons_of_neg _ (by simpa using hx)] at h
      rw [List.cons_append, List.find?_cons_of_neg _ (by simpa using hx)]
      exact ih h

/-- `find?` returns the hit of the first block that has one. -/
theorem find?_append_some_left (p : List Char → Bool) (l1 l2 : List (List Char))
    (a : List Char) (h : l1.find? p = some a) : (l1 ++ l2).find? p = some a := by
  induction l1 with
  | nil => cases h
  | cons x xs ih =>
    by_cases hx : p x = true
    · rw [List.find?_cons_of_pos _ hx] at h
      rw [List.cons_append, List.find?_cons_of_pos _ hx]
      exact h
    · rw [List.find?_cons_of_neg _ (by simpa using hx)] at h
      rw [List.cons_append, List.find?_cons_of_neg _ (by simpa using hx)]
      exact ih h

/-- Replaying the matching loop against the output header list: because the
output lists the consumed headers first, in consumption order, and then the
leftovers in file order, every entry resolves to exactly the same header as
it did against the input header list, so the whole loop state evolves
identically. -/
theorem matchFold_stable (H1 H2 : List (List Char))
    (hmem12 : ∀ x ∈ H1, x ∈ H2)
    (hne1 : ∀ x ∈ H1, firstTok x ≠ []) (lft : List (List Char))
    (hlft : ∀ x ∈ lft, x ∈ H1) :
    ∀ (entries ord used nf tail : List (List Char)),
    (∀ x, x ∈ used ↔ x ∈ ord) → ord.Nodup →
    (∀ x ∈ ord, x ∈ H1) → (∀ x ∈ tail, x ∈ H1) →
    H2 = ord ++ tail ++ lft →
    (entries.foldl (matchStep H1) (ord, used, nf)).1 = ord ++ tail →
    entries.foldl (matchStep H2) (ord, used, nf)
      = entries.foldl (matchStep H1) (ord, used, nf) := by
  intro entries
  induction entries with
  | nil =>
    intro ord used nf tail _ _ _ _ _ _
    rfl
  | cons e es ih =>
    intro ord used nf tail hinv hnd hordsub htailsub hH2 hfold
    have hH2sub : ∀ x ∈ H2, x ∈ H1 := by
      intro x hx
      rw [hH2] at hx
      rcases List.mem_append.mp hx with hx | hx
      · rcases List.mem_append.mp hx with hx | hx
        · exact hordsub x hx
        · exact htailsub x hx
      · exact hlft x hx
    simp only [List.foldl_cons] at hfold ⊢
    by_cases hex : e ∈ H1 ∧ e ∉ used
    · -- exact match in both runs
      have hex2 : e ∈ H2 ∧ e ∉ used := ⟨hmem12 e hex.1, hex.2⟩
      have hres1 : resolveEntry H1 used e = some e := by
        unfold resolveEntry
        rw [if_pos hex]
      have hres2 : resolveEntry H2 used e = some e := by
        unfold resolveEntry
        rw [if_pos hex2]
      rw [show matchStep H1 (ord, used, nf) e = (ord ++ [e], e :: used, nf) from by
        simp [matchStep, hres1]] at hfold ⊢
      rw [show matchStep H2 (ord, used, nf) e = (ord ++ [e], e :: used, nf) from by
        simp [matchStep, hres2]]
      -- split tail = e :: t'
      obtain ⟨-, -, -, t', ht'⟩ := matchFold_inv H1 es (ord ++ [e]) (e :: used) nf
        (by
          intro x
          simp only [List.mem_cons, List.mem_append, List.mem_singleton]
          rw [hinv x]
          tauto)
        (by
          rw [List.nodup_append]
          exact ⟨hnd, List.nodup_singleton e, by
            intro a ha hb
            simp only [List.mem_singleton] at hb
            subst hb
            exact hex.2 ((hinv a).mpr ha)⟩)
        (by
          intro x hx
          rcases List.mem_append.mp hx with hx | hx
          · exact hordsub x hx
          · simp only [List.mem_singleton] at hx
            exact hx ▸ hex.1)
      have htail : tail = e :: t' := by
        have : ord ++ tail = (ord ++ [e]) ++ t' := by rw [← ht', hfold]
        rw [List.append_assoc] at this
        have := List.append_cancel_left this
        simpa using this
      apply ih (ord ++ [e]) (e :: used) nf t'
      · intro x
        simp only [List.mem_cons, List.mem_append, List.mem_singleton]
        rw [hinv x]
        tauto
      · rw [List.nodup_append]
        exact ⟨hnd, List.nodup_singleton e, by
          intro a ha hb
          simp only [List.mem_singleton] at hb
          subst hb
          exact hex.2 ((hinv a).mpr ha)⟩
      · intro x hx
        rcases List.mem_append.mp hx with hx | hx
        · exact hordsub x hx
        · simp only [List.mem_singleton] at hx
          exact hx ▸ hex.1
      · intro x hx
        exact htailsub x (htail ▸ List.mem_cons_of_mem _ hx)
      · rw [hH2, htail]
        simp [List.append_assoc]
      · rw [hfold, htail]
        simp [List.append_assoc]
    · -- no exact match in either run
      have hex2 : ¬ (e ∈ H2 ∧ e ∉ used) := by
        intro hcon
        exact hex ⟨hH2sub e hcon.1, hcon.2⟩
      cases hfind1 : (H1.filter (fun x => decide (firstTok x = e))).find?
          (fun x => decide (x ∉ used)) with
      | some ch =>
        have hchmem : ch ∈ H1.filter (fun x => decide (firstTok x = e)) :=
          List.mem_of_find?_eq_some hfind1
        have hchH1 : ch ∈ H1 := (List.mem_filter.mp hchmem).1
        have hchtok : firstTok ch = e := by
          have := (List.mem_filter.mp hchmem).2
          simpa using this
        have hchnu : ch ∉ used := by
          have := List.find?_some hfind1
          simpa using this
        have hchne : ch ≠ [] := by
          intro hcon
          exact hne1 ch hchH1 (by rw [hcon]; exact firstTok_nil)
        have hres1 : resolveEntry H1 used e = some ch := by
          unfold resolveEntry
          rw [if_neg hex, hfind1]
          show (if ch ≠ [] then some ch else none) = some ch
          rw [if_pos hchne]
        rw [show matchStep H1 (ord, used, nf) e = (ord ++ [ch], ch :: used, nf) from by
          simp [matchStep, hres1]] at hfold ⊢
        -- tail starts with ch
        obtain ⟨-, -, -, t', ht'⟩ := matchFold_inv H1 es (ord ++ [ch]) (ch :: used) nf
          (by
            intro x
            simp only [List.mem_cons, List.mem_append, List.mem_singleton]
            rw [hinv x]
            tauto)
          (by
            rw [List.nodup_append]
            exact ⟨hnd, List.nodup_singleton ch, by
              intro a ha hb
              simp only [List.mem_singleton] at hb
              subst hb
              exact hchnu ((hinv a).mpr ha)⟩)
          (by
            intro x hx
            rcases List.mem_append.mp hx with hx | hx
            · exact hordsub x hx
            · simp only [List.mem_singleton] at hx
              exact hx ▸ hchH1)
        have htail : tail = ch :: t' := by
          have : ord ++ tail = (ord ++ [ch]) ++ t' := by rw [← ht', hfold]
          rw [List.append_assoc] at this
          have := List.append_cancel_left this
          simpa using this
        -- the replay finds the same header first
        have hordnone : ((ord.filter (fun x => decide (firstTok x = e))).find?
            (fun x => decide (x ∉ used))) = none := by
          rw [List.find?_eq_none]
          intro x hx
          simp only [decide_eq_true_eq, not_not]
          exact (hinv x).mpr (List.mem_of_mem_filter hx)
        have hchfilter : (ch :: t').filter (fun x => decide (firstTok x = e))
            = ch :: t'.filter (fun x => decide (firstTok x = e)) := by
          rw [List.filter_cons, if_pos (by simp [hchtok])]
        have hfind2 : (H2.filter (fun x => decide (firstTok x = e))).find?
            (fun x => decide (x ∉ used)) = some ch := by
          rw [hH2, htail]
          rw [List.filter_append, List.filter_append]
          apply find?_append_some_left
          rw [find?_append_none_left _ _ _ hordnone, hchfilter]
          exact List.find?_cons_of_pos _ (by simpa using hchnu)
        have hres2 : resolveEntry H2 used e = some ch := by
          unfold resolveEntry
          rw [if_neg hex2, hfind2]
          show (if ch ≠ [] then some ch else none) = some ch
          rw [if_pos hchne]
        rw [show matchStep H2 (ord, used, nf) e = (ord ++ [ch], ch :: used, nf) from by
          simp [matchStep, hres2]]
        apply ih (ord ++ [ch]) (ch :: used) nf t'
        · intro x
          simp only [List.mem_cons, List.mem_append, List.mem_singleton]
          rw [hinv x]
          tauto
        · rw [List.nodup_append]
          exact ⟨hnd, List.nodup_singleton ch, by
            intro a ha hb
            simp only [List.mem_singleton] at hb
            subst hb
            exact hchnu ((hinv a).mpr ha)⟩
        · intro x hx
          rcases List.mem_append.mp hx with hx | hx
          · exact hordsub x hx
          · simp only [List.mem_singleton] at hx
            exact hx ▸ hchH1
        · intro x hx
          exact htailsub x (htail ▸ List.mem_cons_of_mem _ hx)
        · rw [hH2, htail]
          simp [List.append_assoc]
        · rw [hfold, htail]
          simp [List.append_assoc]
      | none =>
        have hres1 : resolveEntry H1 used e = none := by
          unfold resolveEntry
          rw [if_neg hex, hfind1]
        have hfind2 : (H2.filter (fun x => decide (firstTok x = e))).find?
            (fun x => decide (x ∉ used)) = none := by
          apply find?_eq_none_of_subset _ (H1.filter (fun x => decide (firstTok x = e)))
          · intro x hx
            have hm := List.mem_filter.mp hx
            exact List.mem_filter.mpr ⟨hH2sub x hm.1, hm.2⟩
          · exact hfind1
        have hres2 : resolveEntry H2 used e = none := by
          unfold resolveEntry
          rw [if_neg hex2, hfind2]
        rw [show matchStep H1 (ord, used, nf) e = (ord, used, nf ++ [e]) from by
          simp [matchStep, hres1]] at hfold ⊢
        rw [show matchStep H2 (ord, used, nf) e = (ord, used, nf ++ [e]) from by
          simp [matchStep, hres2]]
        exact ih ord used (nf ++ [e]) tail hinv hnd hordsub htailsub hH2 hfold

/-- Claim C8, amended: for a FASTA none of whose parsed sequences contains
the record-marker character `'>'`, a successful run of the reorder tool
followed by a second run on its own serialized output, with the same order
list and wrap width, succeeds and reproduces the same record order. -/
theorem claim_C8_idempotent (lines order : List (List Char)) (wrap : Int)
    (out1 : List (List Char × List Char))
    (h1 : reorderTool lines order = .ok out1)
    (hgt : ∀ p ∈ parseReorder lines, '>' ∉ p.2) :
    ∃ out2, reorderTool (serializeFasta out1 wrap) order = .ok out2 ∧
      out2.map Prod.fst = out1.map Prod.fst := by
  obtain ⟨hne1, htok1, hout1⟩ := reorderRun_ok_inv (parseReorder lines) order out1 h1
  obtain ⟨i1, i2, i3⟩ := matchLoop_inv ((parseReorder lines).map Prod.fst) order
  have hfst1 : out1.map Prod.fst
      = (matchLoop ((parseReorder lines).map Prod.fst) order).1 ++
        ((parseReorder lines).map Prod.fst).filter
          (fun x => decide (x ∉ (matchLoop ((parseReorder lines).map Prod.fst) order).2.1)) := by
    rw [hout1, map_fst_pairing]
  have hH2sub1 : ∀ x ∈ out1.map Prod.fst, x ∈ (parseReorder lines).map Prod.fst := by
    intro x hx
    rw [hfst1] at hx
    rcases List.mem_append.mp hx with hx | hx
    · exact i3 x hx
    · exact List.mem_of_mem_filter hx
  have hmem12 : ∀ x ∈ (parseReorder lines).map Prod.fst, x ∈ out1.map Prod.fst := by
    intro x hx
    rw [hfst1]
    by_cases hu : x ∈ (matchLoop ((parseReorder lines).map Prod.fst) order).1
    · exact List.mem_append.mpr (Or.inl hu)
    · refine List.mem_append.mpr (Or.inr (List.mem_filter.mpr ⟨hx, ?_⟩))
      simp only [decide_eq_true_eq]
      intro hcon
      exact hu ((i1 x).mp hcon)
  -- the reparse of the serialized output carries exactly out1's headers
  have hstr1 : ∀ r ∈ out1, stripPy r.1 = r.1 := by
    intro r hr
    have hrh : r.1 ∈ out1.map Prod.fst := List.mem_map_of_mem Prod.fst hr
    have hrh1 : r.1 ∈ (parseReorder lines).map Prod.fst := hH2sub1 r.1 hrh
    obtain ⟨p, hp, hpe⟩ := List.mem_map.mp hrh1
    rw [← hpe]
    exact parseGoRe_headers_stripped lines none [] (by intro h hcon; cases hcon) p hp
  have hgt1 : ∀ r ∈ out1, '>' ∉ r.2 := by
    intro r hr
    rw [hout1] at hr
    obtain ⟨h, -, hhe⟩ := List.mem_map.mp hr
    have hs : r.2 = seqOf (parseReorder lines) h := by rw [← hhe]
    rcases seqOf_eq_nil_or_mem (parseReorder lines) h with hnil | ⟨q, hq, hqe⟩
    · rw [hs, hnil]
      simp
    · rw [hs, hqe]
      exact hgt q hq
  have hfst2 : (parseReorder (serializeFasta out1 wrap)).map Prod.fst
      = out1.map Prod.fst := parse_serialize_fst wrap out1 hstr1 hgt1
  -- the second run passes both guards
  have hne2 : (parseReorder (serializeFasta out1 wrap)).map Prod.fst ≠ [] := by
    rw [hfst2]
    intro hcon
    cases hh1 : (parseReorder lines).map Prod.fst with
    | nil => exact hne1 hh1
    | cons x xs =>
      have : x ∈ out1.map Prod.fst := hmem12 x (by rw [hh1]; exact List.mem_cons_self x xs)
      rw [hcon] at this
      cases this
  have htok2 : ∀ x ∈ (parseReorder (serializeFasta out1 wrap)).map Prod.fst,
      firstTok x ≠ [] := by
    intro x hx
    rw [hfst2] at hx
    exact htok1 x (hH2sub1 x hx)
  have hok2 := reorderRun_ok (parseReorder (serializeFasta out1 wrap)) order hne2 htok2
  refine ⟨_, hok2, ?_⟩
  rw [map_fst_pairing]
  -- the replayed loop coincides with the first loop
  have hstable : matchLoop (out1.map Prod.fst) order
      = matchLoop ((parseReorder lines).map Prod.fst) order := by
    have hstep := matchFold_stable ((parseReorder lines).map Prod.fst)
      (out1.map Prod.fst) hmem12 htok1
      (((parseReorder lines).map Prod.fst).filter
        (fun x => decide (x ∉ (matchLoop ((parseReorder lines).map Prod.fst) order).2.1)))
      (fun x hx => List.mem_of_mem_filter hx)
      order [] [] []
      (matchLoop ((parseReorder lines).map Prod.fst) order).1
      (by simp) List.nodup_nil (by simp) (fun x hx => i3 x hx)
      (by rw [hfst1]; rfl)
      (by simp only [matchLoop]; rfl)
    exact hstep
  rw [hfst2, hstable, hfst1]
  rw [List.filter_append]
  have hfa : (matchLoop ((parseReorder lines).map Prod.fst) order).1.filter
      (fun x => decide (x ∉ (matchLoop ((parseReorder lines).map Prod.fst) order).2.1))
      = [] := by
    rw [List.filter_eq_nil_iff]
    intro x hx
    simp only [decide_eq_true_eq, not_not]
    exact (i1 x).mpr hx
  have hfb : (((parseReorder lines).map Prod.fst).filter
      (fun x => decide (x ∉ (matchLoop ((parseReorder lines).map Prod.fst) order).2.1))).filter
      (fun x => decide (x ∉ (matchLoop ((parseReorder lines).map Prod.fst) order).2.1))
      = ((parseReorder lines).map Prod.fst).filter
        (fun x => decide (x ∉ (matchLoop ((parseReorder lines).map Prod.fst) order).2.1)) := by
    rw [List.filter_eq_self]
    intro x hx
    exact (List.mem_filter.mp hx).2
  rw [hfa, hfb]
  simp

/-- Claim C8, counterexample to the claim as stated: a sequence containing
`'>'` re-wrapped at width 2 puts the marker at the start of a line, so the
second run parses a phantom record and the record order changes. -/
theorem claim_C8_counterexample :
    writtenRecords (parseReorder [['>', 'h'], ['A', 'B', '>', 'C', 'D']]) []
      = [(['h'], ['A', 'B', '>', 'C', 'D'])] ∧
    serializeFasta [(['h'], ['A', 'B', '>', 'C', 'D'])] 2
      = [['>', 'h'], ['A', 'B'], ['>', 'C'], ['D']] ∧
    (writtenRecords (parseReorder
        (serializeFasta [(['h'], ['A', 'B', '>', 'C', 'D'])] 2)) []).map Prod.fst
      ≠ [['h']] := by
  refine ⟨by decide, by decide, by decide⟩

/-- Witness for the amended C8 at a concrete FASTA with a marker-free
sequence. -/
theorem claim_C8_idempotent_witness :
    ∃ out2, reorderTool
        (serializeFasta [(['a'], ['A', 'C', 'G'])] 2) []
        = .ok out2 ∧
      out2.map Prod.fst = [(['a'], ['A', 'C', 'G'])].map Prod.fst :=
  claim_C8_idempotent [['>', 'a'], ['A', 'C', 'G']] [] 2
    [(['a'], ['A', 'C', 'G'])] rfl (by decide)
